import Mathlib

/-!
# Verification of `sp301415/num` (`num.go`)

Shallow embedding of the integer functions of `num.go` and proofs of the
properties its specification states about them.

## Conventions of the embedding

* Go integers are embedded in `Int`.  `Pow` is generic over an element type
  `T : IntType`, which is either the mathematical integers (`IntType.ideal`,
  "no intermediate overflows") or a fixed-width two's-complement type, where
  every product is reduced by `T.wrap` (explicit `% 2 ^ w`).  The other
  functions are embedded over the mathematical integers.
* Go's `/` and `%` truncate towards zero: `Int.tdiv` and `Int.tmod`.
  `y >> 1` is the arithmetic shift `Int.shiftRight y 1`, `y & 1` is
  `Int.land y 1`, and `1 << y` with `y ≥ 0` is `1 <<< y`.
* In `Bit`, the conversion `uint64(x)` is `x % 2 ^ 64`; a shift by a negative
  count panics, and a right shift has no upper limit on its count (Go
  language specification, "Arithmetic operators": shifts).
* A call either returns, or panics: `Result.ret v` and `Result.panic p`.
* A `for` loop is a function with an iteration budget (a `Nat`), which
  yields `Result.fuel` when the budget is used up while the loop condition
  still holds.  Each function passes a budget computed from its arguments,
  and the theorems show that this budget is never used up.
-/

namespace Num

/-- The runtime panics of `num.go`: the three explicit `panic(...)` calls and
Go's own panics on an integer division by zero and on a negative shift
count. -/
inductive Panic where
  /-- Raised by `panic("negative exponent")`. -/
  | negativeExponent
  /-- Raised by `panic("modulo by zero")`. -/
  | moduloByZero
  /-- Raised by `panic("square root of negative number")`. -/
  | negativeSquareRoot
  /-- Go runtime error: integer divide by zero -/
  | divideByZero
  /-- Go runtime error: negative shift amount -/
  | negativeShift
  deriving DecidableEq, Repr

/-- Outcome of a call: a returned value, a panic, or an exhausted iteration
budget of the embedding. -/
inductive Result (α : Type) where
  | ret (v : α)
  | panic (p : Panic)
  | fuel
  deriving DecidableEq, Repr

/-- The element type `T` of a generic function: the mathematical integers, or
a signed or unsigned two's-complement type of `w` bits. -/
inductive IntType where
  | ideal
  | sint (w : Nat)
  | uint (w : Nat)
  deriving DecidableEq, Repr

/-- The modulus of the arithmetic of `T`: `2 ^ w`, and `0` for the
mathematical integers (congruence modulo `0` is equality). -/
def IntType.modulus : IntType → Int
  | .ideal => 0
  | .sint w => 2 ^ w
  | .uint w => 2 ^ w

/-- Reduction of a mathematical result to its representative in `T`
(wrap-around on overflow). -/
def IntType.wrap : IntType → Int → Int
  | .ideal, z => z
  | .sint w, z => (z + 2 ^ (w - 1)) % 2 ^ w - 2 ^ (w - 1)
  | .uint w, z => z % 2 ^ w

/-- The widths for which the constants `0`, `1`, `2` of the source are values
of `T` (every Go integer type has at least 8 bits). -/
def IntType.WellFormed : IntType → Prop
  | .ideal => True
  | .sint w => 8 ≤ w
  | .uint w => 8 ≤ w

instance (T : IntType) : Decidable T.WellFormed := by
  cases T <;> unfold IntType.WellFormed <;> infer_instance

/-- Function `Abs`, num.go:11. -/
def Abs (x : Int) : Int :=
  if x > 0 then x else -x

/-- Function `Sign`, num.go:196. -/
def Sign (x : Int) : Int :=
  if x < 0 then -1 else if x > 0 then 1 else 0

/-- The loop of `Pow`, num.go:74-80, from the state `(r, x, y)`. -/
def powLoop (T : IntType) : Nat → Int → Int → Int → Result Int
  | 0, r, _, y => if y > 0 then .fuel else .ret r
  | n + 1, r, x, y =>
    if y > 0 then
      powLoop T n (if Int.land y 1 = 1 then T.wrap (r * x) else r) (T.wrap (x * x)) (Int.shiftRight y 1)
    else .ret r

/-- Function `Pow`, num.go:56. -/
def Pow (T : IntType) (x y : Int) : Result Int :=
  if x = 0 ∧ y = 0 then .ret 1
  else if y < 0 then .panic .negativeExponent
  else if x = 0 then .ret 0
  else if x = 1 then .ret 1
  else if x = 2 then .ret (T.wrap ((1 : Int) <<< y))
  else powLoop T y.toNat 1 x y

/-- The loop of `PowMod`, num.go:109-115, from the state `(r, x, y)`. -/
def powModLoop (m : Int) : Nat → Int → Int → Int → Result Int
  | 0, r, _, y => if y > 0 then .fuel else .ret r
  | n + 1, r, x, y =>
    if y > 0 then
      powModLoop m n (if Int.land y 1 = 1 then (r * x).tmod m else r) ((x * x).tmod m) (Int.shiftRight y 1)
    else .ret r

/-- Function `PowMod`, num.go:87. -/
def PowMod (x y m : Int) : Result Int :=
  if y < 0 then .panic .negativeExponent
  else if m = 0 then .panic .moduloByZero
  else if x = 0 then .ret 0
  else if x = 1 then (if m = 1 then .ret 0 else .ret 1)
  else if x = 2 then .ret (((1 : Int) <<< y).tmod m)
  else powModLoop m y.toNat 1 x y

/-- The loop of `GCD`, num.go:136-138, from the state `(x, y)`. -/
def gcdLoop : Nat → Int → Int → Result Int
  | 0, x, y => if y > 0 then .fuel else .ret x
  | n + 1, x, y => if y > 0 then gcdLoop n y (x.tmod y) else .ret x

/-- Function `GCD`, num.go:124. -/
def GCD (x y : Int) : Result Int :=
  let x := Abs x
  let y := Abs y
  if x = 0 ∧ y = 0 then .ret 0
  else if x = 0 then .ret y
  else if y = 0 then .ret x
  else gcdLoop y.toNat x y

/-- The loop of `XGCD`, num.go:163-168, from the state
`(oldr, r, olds, s, oldt, t)`. -/
def xgcdLoop : Nat → Int → Int → Int → Int → Int → Int → Result (Int × Int × Int)
  | 0, oldr, r, olds, _, oldt, _ => if r ≠ 0 then .fuel else .ret (oldr, olds, oldt)
  | n + 1, oldr, r, olds, s, oldt, t =>
    if r ≠ 0 then
      let q := oldr.tdiv r
      xgcdLoop n r (oldr - q * r) s (olds - q * s) t (oldt - q * t)
    else .ret (oldr, olds, oldt)

/-- Function `XGCD`, num.go:149. -/
def XGCD (x y : Int) : Result (Int × Int × Int) :=
  if x = 0 ∧ y = 0 then .ret (0, 0, 0)
  else if x = 0 then .ret (Abs y, 0, Sign y)
  else if y = 0 then .ret (Abs x, Sign x, 0)
  else xgcdLoop y.natAbs x y 1 0 0 1

/-- The loop of `Sqrt`, num.go:223-226, from the state `(x0, x1)`; the
division `x / x0` of the loop body panics when the new `x0` is zero. -/
def sqrtLoop (x : Int) : Nat → Int → Int → Result Int
  | 0, x0, x1 => if x1 < x0 then .fuel else .ret x0
  | n + 1, x0, x1 =>
    if x1 < x0 then
      if x1 = 0 then .panic .divideByZero
      else sqrtLoop x n x1 ((x1 + x.tdiv x1).tdiv 2)
    else .ret x0

/-- Function `Sqrt`, num.go:207. -/
def Sqrt (x : Int) : Result Int :=
  if x < 0 then .panic .negativeSquareRoot
  else if x = 0 then .ret 0
  else if x = 1 then .ret 1
  else
    let x0 := x.tdiv 2
    if x0 = 0 then .panic .divideByZero
    else sqrtLoop x x.toNat x0 ((x0 + x.tdiv x0).tdiv 2)

/-- Function `Bit`, num.go:19: `int((uint64(x) >> i) & 1)`.  The shift count
`i` is a signed `int`; Go panics when it is negative and shifts by any
non-negative count. -/
def Bit (x i : Int) : Result Int :=
  if i < 0 then .panic .negativeShift
  else .ret (Int.land (Int.shiftRight (x % 2 ^ 64) i.toNat) 1)

/-- The loop of `Sqrt`, num.go:223-226, with the control flow of `sqrtLoop`,
which also records in `ds`, in order, the divisor `x0` of every division
`x / x0` it executes. -/
def sqrtLoopDivisors (x : Int) : Nat → Int → Int → List Int → Result (Int × List Int)
  | 0, x0, x1, ds => if x1 < x0 then .fuel else .ret (x0, ds)
  | n + 1, x0, x1, ds =>
    if x1 < x0 then
      if x1 = 0 then .panic .divideByZero
      else sqrtLoopDivisors x n x1 ((x1 + x.tdiv x1).tdiv 2) (ds ++ [x1])
    else .ret (x0, ds)

/-- Function `Sqrt`, num.go:207, returning with its result the list of the
divisors `x0` of all divisions `x / x0` it executed (the seed division of
num.go:221 first). -/
def SqrtDivisors (x : Int) : Result (Int × List Int) :=
  if x < 0 then .panic .negativeSquareRoot
  else if x = 0 then .ret (0, [])
  else if x = 1 then .ret (1, [])
  else
    let x0 := x.tdiv 2
    if x0 = 0 then .panic .divideByZero
    else sqrtLoopDivisors x x.toNat x0 ((x0 + x.tdiv x0).tdiv 2) [x0]

/-- The square-and-multiply loop as the specification words it:
while `y > 0`: if `y` is odd, `r *= x`; then `x *= x`; then `y >>= 1`. -/
def squareMultiplyLoop (T : IntType) : Nat → Int → Int → Int → Result Int
  | 0, r, _, y => if y > 0 then .fuel else .ret r
  | n + 1, r, x, y =>
    if y > 0 then
      squareMultiplyLoop T n (if y % 2 = 1 then T.wrap (r * x) else r) (T.wrap (x * x))
        (Int.shiftRight y 1)
    else .ret r

/-- The general algorithm of `Pow` alone: `Pow` with the `x == 0 && y == 0`
test and the `switch` removed, that is `r = 1` followed by the
square-and-multiply loop. -/
def PowGeneral (T : IntType) (x y : Int) : Result Int :=
  if y < 0 then .panic .negativeExponent
  else squareMultiplyLoop T y.toNat 1 x y

/-! ## Test vectors of `num_test.go`, evaluated on the embedding -/

theorem test_Pow : Pow .ideal 0 0 = .ret 1 ∧ Pow .ideal 0 1 = .ret 0 ∧
    Pow .ideal 1 0 = .ret 1 ∧ Pow .ideal 1 1 = .ret 1 ∧ Pow .ideal 2 10 = .ret 1024 ∧
    Pow .ideal (-2) 10 = .ret 1024 ∧ Pow .ideal 3 4 = .ret 81 ∧
    Pow .ideal 10 2 = .ret 100 := by decide

theorem test_Pow_fixed : Pow (.sint 8) 3 5 = .ret (-13) ∧ Pow (.uint 8) 3 5 = .ret 243 ∧
    Pow (.uint 8) 2 9 = .ret 0 ∧ Pow (.sint 8) 2 7 = .ret (-128) := by decide

theorem test_PowMod : PowMod 0 0 1 = .ret 0 ∧ PowMod 1 1 1 = .ret 0 ∧
    PowMod 1 1 2 = .ret 1 ∧ PowMod 2 2 1 = .ret 0 ∧ PowMod 3 2 1 = .ret 0 ∧
    PowMod 7 5 4 = .ret 3 := by decide

theorem test_GCD : GCD 0 0 = .ret 0 ∧ GCD 0 2 = .ret 2 ∧ GCD 2 0 = .ret 2 ∧
    GCD 2 3 = .ret 1 ∧ GCD 3 6 = .ret 3 ∧ GCD 240 46 = .ret 2 := by decide

theorem test_XGCD : XGCD 0 0 = .ret (0, 0, 0) ∧ XGCD 0 2 = .ret (2, 0, 1) ∧
    XGCD 0 (-2) = .ret (2, 0, -1) ∧ XGCD 2 0 = .ret (2, 1, 0) ∧
    XGCD (-2) 0 = .ret (2, -1, 0) ∧ XGCD 240 46 = .ret (2, -9, 47) := by decide

theorem test_Sqrt : Sqrt 0 = .ret 0 ∧ Sqrt 1 = .ret 1 ∧ Sqrt 2 = .ret 1 ∧
    Sqrt 99 = .ret 9 ∧ Sqrt 100 = .ret 10 := by decide

theorem test_Bit : Bit 0 0 = .ret 0 ∧ Bit 16 4 = .ret 1 ∧ Bit 42 4 = .ret 0 ∧
    Bit (-1) 63 = .ret 1 ∧ Bit 0 (-1) = .panic .negativeShift := by decide

theorem test_SqrtDivisors : SqrtDivisors 99 = .ret (9, [49, 25, 14, 10, 9]) ∧
    SqrtDivisors 2 = .ret (1, [1]) ∧ PowGeneral .ideal 2 10 = .ret 1024 ∧
    PowGeneral (.uint 8) 2 9 = .ret 0 := by decide

/-! ## `Sqrt` -/

theorem newton_lower (x x0 : Int) (hx : 0 ≤ x) (h0 : 0 < x0) :
    x < ((x0 + x / x0) / 2 + 1) * ((x0 + x / x0) / 2 + 1) := by
  have hq0 : 0 ≤ x / x0 := Int.ediv_nonneg hx (le_of_lt h0)
  have hq : x < x0 * (x / x0 + 1) := by
    have := Int.lt_ediv_add_one_mul_self x h0
    linarith
  have h2 : x0 + x / x0 + 1 ≤ 2 * ((x0 + x / x0) / 2 + 1) := by
    have := Int.lt_ediv_add_one_mul_self (x0 + x / x0) (by norm_num : (0:Int) < 2)
    linarith
  generalize x / x0 = q at *
  generalize (x0 + q) / 2 = h at *
  have h3 : 4 * (x0 * (q + 1)) ≤ (x0 + q + 1) * (x0 + q + 1) := by
    nlinarith [sq_nonneg (x0 - (q + 1))]
  have h4 : (x0 + q + 1) * (x0 + q + 1) ≤ (2 * (h + 1)) * (2 * (h + 1)) := by
    apply mul_le_mul h2 h2 <;> linarith
  nlinarith

theorem newton_stop (x x0 : Int) (h0 : 0 < x0)
    (h : ¬ (x0 + x / x0) / 2 < x0) : x0 * x0 ≤ x := by
  have h1 : x0 ≤ (x0 + x / x0) / 2 := not_lt.mp h
  have h2 : 2 * x0 ≤ x0 + x / x0 := by
    have := Int.ediv_mul_le (x0 + x / x0) (by norm_num : (2:Int) ≠ 0)
    linarith
  have h3 : x0 ≤ x / x0 := by linarith
  have h4 : x / x0 * x0 ≤ x := Int.ediv_mul_le x (ne_of_gt h0)
  nlinarith

theorem sqrtLoop_spec (x : Int) (hx : 1 ≤ x) :
    ∀ (n : Nat) (x0 : Int), 0 < x0 → x0.toNat ≤ n → x < (x0 + 1) * (x0 + 1) →
      ∃ r, sqrtLoop x n x0 ((x0 + x.tdiv x0).tdiv 2) = .ret r ∧ 0 < r ∧
        r * r ≤ x ∧ x < (r + 1) * (r + 1) := by
  intro n
  induction n with
  | zero =>
    intro x0 h0 hn _
    omega
  | succ n ih =>
    intro x0 h0 hn hlt
    have hx0 : 0 ≤ x := by omega
    have hq0 : 0 ≤ x / x0 := Int.ediv_nonneg hx0 (le_of_lt h0)
    have e1 : x.tdiv x0 = x / x0 := Int.tdiv_eq_ediv hx0 (le_of_lt h0)
    have e2 : (x0 + x / x0).tdiv 2 = (x0 + x / x0) / 2 :=
      Int.tdiv_eq_ediv (by omega) (by norm_num)
    rw [e1, e2]
    unfold sqrtLoop
    by_cases hc : (x0 + x / x0) / 2 < x0
    · have hlow := newton_lower x x0 hx0 h0
      have h1nn : 0 ≤ (x0 + x / x0) / 2 := Int.ediv_nonneg (by omega) (by norm_num)
      have h1pos : 0 < (x0 + x / x0) / 2 := by
        rcases eq_or_lt_of_le h1nn with h | h
        · rw [← h] at hlow; omega
        · exact h
      rw [if_pos hc, if_neg (ne_of_gt h1pos)]
      exact ih _ h1pos (by omega) hlow
    · rw [if_neg hc]
      exact ⟨x0, rfl, h0, newton_stop x x0 h0 hc, hlt⟩

/-- C1: for every `x ≥ 0`, `Sqrt x` returns the floor square root `r` of `x`:
`r * r ≤ x < (r + 1) * (r + 1)`, and `r` is the largest integer whose square
is at most `x`. -/
theorem Sqrt_floor (x : Int) (hx : 0 ≤ x) :
    ∃ r, Sqrt x = .ret r ∧ 0 ≤ r ∧ r * r ≤ x ∧ x < (r + 1) * (r + 1) ∧
      ∀ s : Int, s * s ≤ x → s ≤ r := by
  have key : ∃ r, Sqrt x = .ret r ∧ 0 ≤ r ∧ r * r ≤ x ∧ x < (r + 1) * (r + 1) := by
    unfold Sqrt
    rw [if_neg (not_lt.mpr hx)]
    by_cases h0 : x = 0
    · rw [if_pos h0]; exact ⟨0, rfl, le_refl _, by omega, by omega⟩
    rw [if_neg h0]
    by_cases h1 : x = 1
    · rw [if_pos h1]; exact ⟨1, rfl, by norm_num, by omega, by omega⟩
    rw [if_neg h1]
    have h2 : 2 ≤ x := by omega
    have e : x.tdiv 2 = x / 2 := Int.tdiv_eq_ediv hx (by norm_num)
    have hpos : 0 < x / 2 := by omega
    simp only [e]
    rw [if_neg (ne_of_gt hpos)]
    have hlt : x < (x / 2 + 1) * (x / 2 + 1) := by
      have : x ≤ 2 * (x / 2) + 1 := by omega
      nlinarith
    obtain ⟨r, hr, hr0, hr1, hr2⟩ := sqrtLoop_spec x (by omega) x.toNat (x / 2) hpos (by omega) hlt
    exact ⟨r, hr, le_of_lt hr0, hr1, hr2⟩
  obtain ⟨r, hr, hr0, hr1, hr2⟩ := key
  refine ⟨r, hr, hr0, hr1, hr2, ?_⟩
  intro s hs
  by_contra hcon
  have : r + 1 ≤ s := by omega
  nlinarith

theorem Sqrt_floor_witness :
    (0 : Int) ≤ 2000000 ∧ ∃ r, Sqrt 2000000 = .ret r ∧ 0 ≤ r ∧ r * r ≤ 2000000 ∧ 2000000 < (r + 1) * (r + 1) ∧
      ∀ s : Int, s * s ≤ 2000000 → s ≤ r :=
  ⟨by decide, Sqrt_floor 2000000 (by decide)⟩

/-! ## `GCD` -/

theorem Abs_eq_natAbs (x : Int) : Abs x = (x.natAbs : Int) := by
  unfold Abs
  split <;> omega

theorem gcdLoop_spec : ∀ (n a b : Nat), b ≤ n →
    gcdLoop n (a : Int) (b : Int) = .ret ((Nat.gcd a b : Nat) : Int) := by
  intro n
  induction n with
  | zero =>
    intro a b hb
    have hb0 : b = 0 := by omega
    subst hb0
    simp [gcdLoop]
  | succ n ih =>
    intro a b hb
    unfold gcdLoop
    by_cases hc : (b : Int) > 0
    · rw [if_pos hc, ← Int.ofNat_tmod]
      have hb0 : 0 < b := by omega
      have hlt : a % b < b := Nat.mod_lt a hb0
      rw [ih b (a % b) (by omega)]
      congr 2
      rw [Nat.gcd_comm b (a % b), ← Nat.gcd_rec, Nat.gcd_comm]
    · rw [if_neg hc]
      have hb0 : b = 0 := by omega
      subst hb0
      simp

theorem GCD_eq_gcd (x y : Int) : GCD x y = .ret ((Int.gcd x y : Nat) : Int) := by
  unfold GCD
  simp only [Abs_eq_natAbs, Int.toNat_ofNat]
  by_cases hx : x = 0
  · by_cases hy : y = 0
    · subst hx hy; simp
    · subst hx
      simp [hy]
  · have hx0 : ¬ ((x.natAbs : Int) = 0) := by omega
    by_cases hy : y = 0
    · subst hy
      simp [hx]
    · have hy0 : ¬ ((y.natAbs : Int) = 0) := by omega
      rw [if_neg (by tauto), if_neg hx0, if_neg hy0, gcdLoop_spec _ _ _ (le_refl _)]
      rfl

/-- C4: `GCD x y` returns the mathematical greatest common divisor of `|x|`
and `|y|`: it is non-negative, divides `x` and `y`, and every common divisor
of `x` and `y` divides it; `GCD 0 0 = 0` and `GCD x 0 = Abs x`. -/
theorem GCD_greatest (x y : Int) :
    ∃ g, GCD x y = .ret g ∧ g = ((Nat.gcd x.natAbs y.natAbs : Nat) : Int) ∧ 0 ≤ g ∧
      g ∣ x ∧ g ∣ y ∧ (∀ d : Int, d ∣ x → d ∣ y → d ∣ g) ∧
      GCD 0 0 = .ret 0 ∧ GCD x 0 = .ret (Abs x) := by
  refine ⟨((Int.gcd x y : Nat) : Int), GCD_eq_gcd x y, rfl, Int.ofNat_nonneg _,
    Int.gcd_dvd_left, Int.gcd_dvd_right, fun d h1 h2 => Int.dvd_gcd h1 h2, by decide, ?_⟩
  rw [GCD_eq_gcd, Abs_eq_natAbs]
  simp

/-! ## `XGCD` -/

theorem natAbs_tmod (a b : Int) : (a.tmod b).natAbs = a.natAbs % b.natAbs := by
  rcases a with (m | m) <;> rcases b with (n | n) <;> simp [Int.tmod] <;> rfl

theorem Sign_mul_self (x : Int) : Sign x * x = Abs x := by
  unfold Sign Abs
  split_ifs <;> omega

theorem xgcdLoop_spec (x y : Int) : ∀ (n : Nat) (oldr r olds s oldt t : Int),
    r.natAbs ≤ n → olds * x + oldt * y = oldr → s * x + t * y = r →
    ∃ g a b, xgcdLoop n oldr r olds s oldt t = .ret (g, a, b) ∧ a * x + b * y = g ∧
      g.natAbs = Nat.gcd oldr.natAbs r.natAbs := by
  intro n
  induction n with
  | zero =>
    intro oldr r olds s oldt t hn h1 _
    have hr : r = 0 := by omega
    subst hr
    exact ⟨oldr, olds, oldt, by simp [xgcdLoop], h1, by simp⟩
  | succ n ih =>
    intro oldr r olds s oldt t hn h1 h2
    unfold xgcdLoop
    by_cases hr : r = 0
    · subst hr
      exact ⟨oldr, olds, oldt, by simp, h1, by simp⟩
    · rw [if_pos hr]
      have hmod : oldr - oldr.tdiv r * r = oldr.tmod r := by
        rw [Int.tmod_def]; ring
      have hlt : (oldr.tmod r).natAbs < r.natAbs := by
        rw [natAbs_tmod]
        exact Nat.mod_lt _ (Int.natAbs_pos.mpr hr)
      obtain ⟨g, a, b, hg, hb, hgcd⟩ := ih r (oldr - oldr.tdiv r * r) s (olds - oldr.tdiv r * s)
        t (oldt - oldr.tdiv r * t) (by rw [hmod]; omega) h2 (by rw [← h1, ← h2]; ring)
      refine ⟨g, a, b, hg, hb, ?_⟩
      rw [hgcd, hmod, natAbs_tmod, Nat.gcd_comm r.natAbs, ← Nat.gcd_rec, Nat.gcd_comm]

/-- C2: over the mathematical integers, `XGCD x y` returns a triple
`(g, s, t)` with `s * x + t * y = g` (Bezout identity), for all `x` and `y`,
zero and negative ones included. -/
theorem XGCD_bezout (x y : Int) :
    ∃ g s t, XGCD x y = .ret (g, s, t) ∧ s * x + t * y = g := by
  unfold XGCD
  by_cases hxy : x = 0 ∧ y = 0
  · rw [if_pos hxy]; exact ⟨0, 0, 0, rfl, by ring⟩
  rw [if_neg hxy]
  by_cases hx : x = 0
  · rw [if_pos hx]; exact ⟨Abs y, 0, Sign y, rfl, by rw [Sign_mul_self]; ring⟩
  rw [if_neg hx]
  by_cases hy : y = 0
  · rw [if_pos hy]; exact ⟨Abs x, Sign x, 0, rfl, by rw [Sign_mul_self]; ring⟩
  rw [if_neg hy]
  obtain ⟨g, a, b, hg, hb, _⟩ := xgcdLoop_spec x y y.natAbs x y 1 0 0 1 (le_refl _)
    (by ring) (by ring)
  exact ⟨g, a, b, hg, hb⟩

/-- C3 (evaluation at the failing input): `XGCD 4 (-2)` returns `g = -2`,
which is negative and differs from `GCD 4 (-2) = 2`. -/
theorem XGCD_neg_gcd :
    XGCD 4 (-2) = .ret (-2, 0, 1) ∧ GCD 4 (-2) = .ret 2 := by decide

/-! ## `Pow` -/

theorem wrap_modEq (T : IntType) (z : Int) : T.wrap z ≡ z [ZMOD T.modulus] := by
  cases T with
  | ideal => exact Int.ModEq.refl z
  | sint w =>
    have h := (Int.mod_modEq (z + 2 ^ (w - 1)) (2 ^ w)).sub_right (2 ^ (w - 1))
    simpa [IntType.wrap, IntType.modulus] using h
  | uint w => exact Int.mod_modEq z (2 ^ w)

theorem wrap_congr (T : IntType) {a b : Int} (h : a ≡ b [ZMOD T.modulus]) :
    T.wrap a = T.wrap b := by
  cases T with
  | ideal => exact Int.modEq_zero_iff.mp h
  | sint w =>
    have h2 : (a + 2 ^ (w - 1)) % 2 ^ w = (b + 2 ^ (w - 1)) % 2 ^ w := h.add_right _
    simp only [IntType.wrap, h2]
  | uint w => exact h

theorem wrap_wrap (T : IntType) (z : Int) : T.wrap (T.wrap z) = T.wrap z :=
  wrap_congr T (wrap_modEq T z)

theorem wrap_zero (T : IntType) (hT : T.WellFormed) : T.wrap 0 = 0 := by
  cases T with
  | ideal => rfl
  | sint w =>
    have hw : 8 ≤ w := hT
    obtain ⟨v, rfl⟩ : ∃ v, w = v + 1 := ⟨w - 1, by omega⟩
    have hp : (0 : Int) < 2 ^ v := by positivity
    simp only [IntType.wrap, Nat.add_sub_cancel, pow_succ]
    rw [Int.emod_eq_of_lt (by linarith) (by linarith)]
    ring
  | uint w => simp [IntType.wrap]

theorem wrap_one (T : IntType) (hT : T.WellFormed) : T.wrap 1 = 1 := by
  cases T with
  | ideal => rfl
  | sint w =>
    have hw : 8 ≤ w := hT
    obtain ⟨v, rfl⟩ : ∃ v, w = v + 2 := ⟨w - 2, by omega⟩
    have hp : (0 : Int) < 2 ^ v := by positivity
    have e1 : v + 2 - 1 = v + 1 := by omega
    simp only [IntType.wrap, e1, pow_succ]
    rw [Int.emod_eq_of_lt (by linarith) (by linarith)]
    ring
  | uint w =>
    have hw : 8 ≤ w := hT
    obtain ⟨v, rfl⟩ : ∃ v, w = v + 1 := ⟨w - 1, by omega⟩
    have hp : (0 : Int) < 2 ^ v := by positivity
    simp only [IntType.wrap, pow_succ]
    exact Int.emod_eq_of_lt (by norm_num) (by linarith)

theorem land_one_natCast (k : Nat) : Int.land (k : Int) 1 = ((k % 2 : Nat) : Int) := by
  show ((Nat.land k 1 : Nat) : Int) = _
  congr 1
  exact Nat.and_one_is_mod k

theorem shiftRight_one_natCast (k : Nat) :
    Int.shiftRight (k : Int) 1 = ((k / 2 : Nat) : Int) := by
  show (k : Int) >>> (1 : Nat) = _
  rw [Int.shiftRight_eq_div_pow]
  norm_num

theorem shiftLeft_one_natCast (k : Nat) : (1 : Int) <<< (k : Int) = 2 ^ k := by
  rw [Int.shiftLeft_eq_mul_pow]
  norm_num

theorem pow_halve (x : Int) (k : Nat) : x ^ k = (x * x) ^ (k / 2) * x ^ (k % 2) := by
  conv_lhs => rw [← Nat.div_add_mod k 2]
  rw [pow_add, pow_mul, pow_two]

theorem powLoop_spec (T : IntType) : ∀ (n k : Nat) (r x : Int), k ≤ n → T.wrap r = r →
    powLoop T n r x (k : Int) = .ret (T.wrap (r * x ^ k)) := by
  intro n
  induction n with
  | zero =>
    intro k r x hk hr
    have hk0 : k = 0 := by omega
    subst hk0
    simp [powLoop, hr]
  | succ n ih =>
    intro k r x hk hr
    unfold powLoop
    by_cases hc : (k : Int) > 0
    · rw [if_pos hc, land_one_natCast, shiftRight_one_natCast]
      have hk2 : k / 2 ≤ n := by omega
      by_cases hodd : k % 2 = 1
      · rw [if_pos (by rw [hodd]; rfl), ih (k / 2) _ _ hk2 (wrap_wrap T _)]
        congr 1
        apply wrap_congr
        rw [pow_halve x k, hodd, pow_one]
        have h1 := ((wrap_modEq T (r * x)).mul ((wrap_modEq T (x * x)).pow (k / 2)))
        have e : r * x * (x * x) ^ (k / 2) = r * ((x * x) ^ (k / 2) * x) := by ring
        rw [← e]; exact h1
      · have hev : k % 2 = 0 := by omega
        rw [if_neg (by rw [hev]; decide), ih (k / 2) _ _ hk2 hr]
        congr 1
        apply wrap_congr
        rw [pow_halve x k, hev, pow_zero, mul_one]
        exact (Int.ModEq.refl r).mul ((wrap_modEq T (x * x)).pow (k / 2))
    · rw [if_neg hc]
      have hk0 : k = 0 := by omega
      subst hk0
      simp [hr]

theorem Pow_natCast (T : IntType) (hT : T.WellFormed) (x : Int) (k : Nat) :
    Pow T x (k : Int) = .ret (T.wrap (x ^ k)) := by
  unfold Pow
  by_cases h00 : x = 0 ∧ (k : Int) = 0
  · obtain ⟨hx, hk⟩ := h00
    have hk0 : k = 0 := by omega
    subst hx hk0
    simp [wrap_one T hT]
  rw [if_neg h00, if_neg (by omega)]
  by_cases hx0 : x = 0
  · have hk0 : k ≠ 0 := by
      intro h; apply h00; exact ⟨hx0, by omega⟩
    rw [if_pos hx0, hx0, zero_pow hk0, wrap_zero T hT]
  rw [if_neg hx0]
  by_cases hx1 : x = 1
  · rw [if_pos hx1, hx1, one_pow, wrap_one T hT]
  rw [if_neg hx1]
  by_cases hx2 : x = 2
  · rw [if_pos hx2, hx2, shiftLeft_one_natCast]
  rw [if_neg hx2, Int.toNat_ofNat, powLoop_spec T k k 1 x (le_refl _) (wrap_one T hT), one_mul]

/-- C5: for every `x` and every `y ≥ 0`, `Pow x y` returns the mathematical
power `x ^ y` (with `0 ^ 0 = 1`); for a fixed-width `T` it returns `x ^ y`
reduced to `T`, which differs from `x ^ y` by a multiple of `2 ^ w`; and
`Pow x 0` returns `1` for every `x`. -/
theorem Pow_eq_pow (T : IntType) (hT : T.WellFormed) (x y : Int) (hy : 0 ≤ y) :
    Pow .ideal x y = .ret (x ^ y.toNat) ∧
    (∃ v, Pow T x y = .ret v ∧ v = T.wrap (x ^ y.toNat) ∧ T.modulus ∣ v - x ^ y.toNat) ∧
    Pow T x 0 = .ret 1 := by
  have hyk : y = (y.toNat : Int) := (Int.toNat_of_nonneg hy).symm
  refine ⟨?_, ⟨T.wrap (x ^ y.toNat), ?_, rfl, ?_⟩, ?_⟩
  · conv_lhs => rw [hyk]
    exact Pow_natCast .ideal trivial x y.toNat
  · conv_lhs => rw [hyk]
    exact Pow_natCast T hT x y.toNat
  · exact Int.modEq_iff_dvd.mp (wrap_modEq T (x ^ y.toNat)).symm
  · have h := Pow_natCast T hT x 0
    rw [pow_zero, wrap_one T hT] at h
    exact h

theorem Pow_eq_pow_witness :
    (IntType.sint 8).WellFormed ∧ (0 : Int) ≤ 5 ∧
    (Pow .ideal 3 5 = .ret (3 ^ (5 : Int).toNat) ∧
    (∃ v, Pow (.sint 8) 3 5 = .ret v ∧ v = (IntType.sint 8).wrap (3 ^ (5 : Int).toNat) ∧
      (IntType.sint 8).modulus ∣ v - 3 ^ (5 : Int).toNat) ∧
    Pow (.sint 8) 3 0 = .ret 1) :=
  ⟨by decide, by decide, Pow_eq_pow (.sint 8) (by decide) 3 5 (by decide)⟩

/-- C8: for every `x` and all `a ≥ 0`, `b ≥ 0`, `Pow x (a + b)` returns the
product of the values of `Pow x a` and `Pow x b`: exactly over the
mathematical integers, and reduced to `T` (modulo `2 ^ w`) for a fixed-width
`T`, the sum `a + b` being formed without overflow. -/
theorem Pow_add (T : IntType) (hT : T.WellFormed) (x a b : Int) (ha : 0 ≤ a) (hb : 0 ≤ b) :
    (∃ va vb, Pow .ideal x a = .ret va ∧ Pow .ideal x b = .ret vb ∧
      Pow .ideal x (a + b) = .ret (va * vb)) ∧
    (∃ va vb, Pow T x a = .ret va ∧ Pow T x b = .ret vb ∧
      Pow T x (a + b) = .ret (T.wrap (va * vb))) := by
  have key : ∀ U : IntType, U.WellFormed → ∃ va vb, Pow U x a = .ret va ∧
      Pow U x b = .ret vb ∧ Pow U x (a + b) = .ret (U.wrap (va * vb)) := by
    intro U hU
    have hak : a = (a.toNat : Int) := (Int.toNat_of_nonneg ha).symm
    have hbk : b = (b.toNat : Int) := (Int.toNat_of_nonneg hb).symm
    have hab : a + b = ((a.toNat + b.toNat : Nat) : Int) := by
      rw [Nat.cast_add, ← hak, ← hbk]
    refine ⟨U.wrap (x ^ a.toNat), U.wrap (x ^ b.toNat), ?_, ?_, ?_⟩
    · conv_lhs => rw [hak]
      exact Pow_natCast U hU x a.toNat
    · conv_lhs => rw [hbk]
      exact Pow_natCast U hU x b.toNat
    · rw [hab, Pow_natCast U hU x (a.toNat + b.toNat), pow_add]
      congr 1
      exact wrap_congr U ((wrap_modEq U _).mul (wrap_modEq U _)).symm
  exact ⟨key .ideal trivial, key T hT⟩

theorem Pow_add_witness :
    (IntType.uint 8).WellFormed ∧ (0 : Int) ≤ 3 ∧ (0 : Int) ≤ 4 ∧
    ((∃ va vb, Pow .ideal 3 3 = .ret va ∧ Pow .ideal 3 4 = .ret vb ∧
      Pow .ideal 3 (3 + 4) = .ret (va * vb)) ∧
    (∃ va vb, Pow (.uint 8) 3 3 = .ret va ∧ Pow (.uint 8) 3 4 = .ret vb ∧
      Pow (.uint 8) 3 (3 + 4) = .ret ((IntType.uint 8).wrap (va * vb)))) :=
  ⟨by decide, by decide, by decide, Pow_add (.uint 8) (by decide) 3 3 4 (by decide) (by decide)⟩

/-! ## `PowMod` -/

theorem tmod_modEq (a m : Int) : a.tmod m ≡ a [ZMOD m] := by
  rw [Int.modEq_iff_dvd, Int.tmod_def]
  exact ⟨a.tdiv m, by ring⟩

theorem tmod_range (a m : Int) (ha : 0 ≤ a) (hm : 0 < m) : 0 ≤ a.tmod m ∧ a.tmod m < m :=
  ⟨Int.tmod_nonneg m ha, Int.tmod_lt_of_pos a hm⟩

theorem powModLoop_spec (m : Int) : ∀ (n k : Nat) (r x : Int), k ≤ n →
    ∃ v, powModLoop m n r x (k : Int) = .ret v ∧ v ≡ r * x ^ k [ZMOD m] := by
  intro n
  induction n with
  | zero =>
    intro k r x hk
    have hk0 : k = 0 := by omega
    subst hk0
    exact ⟨r, by simp [powModLoop], by simp⟩
  | succ n ih =>
    intro k r x hk
    unfold powModLoop
    by_cases hc : (k : Int) > 0
    · rw [if_pos hc, land_one_natCast, shiftRight_one_natCast]
      have hk2 : k / 2 ≤ n := by omega
      by_cases hodd : k % 2 = 1
      · rw [if_pos (by rw [hodd]; rfl)]
        obtain ⟨v, hv, hcong⟩ := ih (k / 2) ((r * x).tmod m) ((x * x).tmod m) hk2
        refine ⟨v, hv, hcong.trans ?_⟩
        rw [pow_halve x k, hodd, pow_one]
        have h1 := (tmod_modEq (r * x) m).mul ((tmod_modEq (x * x) m).pow (k / 2))
        have e : r * x * (x * x) ^ (k / 2) = r * ((x * x) ^ (k / 2) * x) := by ring
        rw [← e]; exact h1
      · have hev : k % 2 = 0 := by omega
        rw [if_neg (by rw [hev]; decide)]
        obtain ⟨v, hv, hcong⟩ := ih (k / 2) r ((x * x).tmod m) hk2
        refine ⟨v, hv, hcong.trans ?_⟩
        rw [pow_halve x k, hev, pow_zero, mul_one]
        exact (Int.ModEq.refl r).mul ((tmod_modEq (x * x) m).pow (k / 2))
    · rw [if_neg hc]
      have hk0 : k = 0 := by omega
      subst hk0
      exact ⟨r, rfl, by simp⟩

/-- Except at `x = 0 ∧ y = 0`, `PowMod x y m` returns a value congruent to
`x ^ y` modulo `m`, for every `y ≥ 0` and `m ≠ 0`. -/
theorem PowMod_modEq (x y m : Int) (hy : 0 ≤ y) (hm : m ≠ 0) (hxy : ¬ (x = 0 ∧ y = 0)) :
    ∃ v, PowMod x y m = .ret v ∧ v ≡ x ^ y.toNat [ZMOD m] := by
  have hyk : y = (y.toNat : Int) := (Int.toNat_of_nonneg hy).symm
  unfold PowMod
  rw [if_neg (not_lt.mpr hy), if_neg hm]
  by_cases hx0 : x = 0
  · have hk0 : y.toNat ≠ 0 := by
      intro h; apply hxy; exact ⟨hx0, by omega⟩
    rw [if_pos hx0, hx0, zero_pow hk0]
    exact ⟨0, rfl, Int.ModEq.refl 0⟩
  rw [if_neg hx0]
  by_cases hx1 : x = 1
  · rw [if_pos hx1, hx1, one_pow]
    by_cases hm1 : m = 1
    · rw [if_pos hm1, hm1]
      exact ⟨0, rfl, Int.modEq_one⟩
    · rw [if_neg hm1]
      exact ⟨1, rfl, Int.ModEq.refl 1⟩
  rw [if_neg hx1]
  by_cases hx2 : x = 2
  · rw [if_pos hx2, hx2]
    refine ⟨_, rfl, ?_⟩
    conv_lhs => rw [hyk, shiftLeft_one_natCast]
    exact tmod_modEq _ m
  rw [if_neg hx2]
  obtain ⟨v, hv, hcong⟩ := powModLoop_spec m y.toNat y.toNat 1 x (le_refl _)
  rw [one_mul] at hcong
  refine ⟨v, ?_, hcong⟩
  conv_lhs => rw [hyk, Int.toNat_ofNat]
  exact hv

/-- C6 (evaluation at the failing input): `PowMod 0 0 2` returns `0` while
`Pow 0 0` returns `1`, and `2` does not divide `0 - 1`. -/
theorem PowMod_zero_zero_not_congr :
    PowMod 0 0 2 = .ret 0 ∧ Pow .ideal 0 0 = .ret 1 ∧ ¬ ((2 : Int) ∣ 0 - 1) := by decide

/-- Except at `x = 0 ∧ y = 0`, the value of `PowMod x y m` and the value of
`Pow x y` over the mathematical integers differ by a multiple of `m`. -/
theorem PowMod_congr_Pow (x y m : Int) (hy : 0 ≤ y) (hm : m ≠ 0) (hxy : ¬ (x = 0 ∧ y = 0)) :
    ∃ v p, PowMod x y m = .ret v ∧ Pow .ideal x y = .ret p ∧ m ∣ v - p := by
  obtain ⟨v, hv, hcong⟩ := PowMod_modEq x y m hy hm hxy
  refine ⟨v, x ^ y.toNat, hv, ?_, Int.modEq_iff_dvd.mp hcong.symm⟩
  conv_lhs => rw [← Int.toNat_of_nonneg hy]
  exact Pow_natCast .ideal trivial x y.toNat

theorem powModLoop_range (m : Int) (hm : 0 < m) : ∀ (n k : Nat) (r x : Int), k ≤ n →
    0 ≤ x → 0 ≤ r → (0 < k ∨ r < m) →
    ∃ v, powModLoop m n r x (k : Int) = .ret v ∧ 0 ≤ v ∧ v < m := by
  intro n
  induction n with
  | zero =>
    intro k r x hk _ hr hor
    have hk0 : k = 0 := by omega
    subst hk0
    exact ⟨r, by simp [powModLoop], hr, by omega⟩
  | succ n ih =>
    intro k r x hk hx hr hor
    unfold powModLoop
    have hxx : 0 ≤ (x * x).tmod m := Int.tmod_nonneg m (mul_nonneg hx hx)
    by_cases hc : (k : Int) > 0
    · rw [if_pos hc, land_one_natCast, shiftRight_one_natCast]
      have hk2 : k / 2 ≤ n := by omega
      by_cases hodd : k % 2 = 1
      · rw [if_pos (by rw [hodd]; rfl)]
        have hrx := tmod_range (r * x) m (mul_nonneg hr hx) hm
        exact ih (k / 2) _ _ hk2 hxx hrx.1 (Or.inr hrx.2)
      · have hev : k % 2 = 0 := by omega
        rw [if_neg (by rw [hev]; decide)]
        exact ih (k / 2) r _ hk2 hxx hr (Or.inl (by omega))
    · rw [if_neg hc]
      have hk0 : k = 0 := by omega
      subst hk0
      exact ⟨r, rfl, hr, by omega⟩

/-- For `x ≥ 0`, `y ≥ 0` and `m > 0`, `PowMod x y m` returns a value in
`[0, m)`, except when `y = 0`, `m = 1` and `x` is none of `0`, `1`, `2`. -/
theorem PowMod_range (x y m : Int) (hx : 0 ≤ x) (hy : 0 ≤ y) (hm : 0 < m)
    (hex : 0 < y ∨ 1 < m ∨ x ≤ 2) :
    ∃ v, PowMod x y m = .ret v ∧ 0 ≤ v ∧ v < m := by
  have hyk : y = (y.toNat : Int) := (Int.toNat_of_nonneg hy).symm
  unfold PowMod
  rw [if_neg (not_lt.mpr hy), if_neg (ne_of_gt hm)]
  by_cases hx0 : x = 0
  · rw [if_pos hx0]; exact ⟨0, rfl, le_refl _, hm⟩
  rw [if_neg hx0]
  by_cases hx1 : x = 1
  · rw [if_pos hx1]
    by_cases hm1 : m = 1
    · rw [if_pos hm1]; exact ⟨0, rfl, le_refl _, hm⟩
    · rw [if_neg hm1]; exact ⟨1, rfl, by norm_num, by omega⟩
  rw [if_neg hx1]
  by_cases hx2 : x = 2
  · rw [if_pos hx2]
    have e : (1 : Int) <<< y = 2 ^ y.toNat := by
      conv_lhs => rw [hyk]
      exact shiftLeft_one_natCast _
    rw [e]
    exact ⟨_, rfl, tmod_range _ m (by positivity) hm⟩
  rw [if_neg hx2]
  have hor : 0 < y.toNat ∨ (1 : Int) < m := by omega
  have h := powModLoop_range m hm y.toNat y.toNat 1 x (le_refl _) hx (by norm_num) hor
  rw [← hyk] at h
  exact h

/-- C7 (evaluation at the failing inputs): `PowMod 3 0 1` returns `1`, which
is not below the modulus `1` and is not the residue `3 ^ 0 % 1 = 0`; and
`PowMod 0 0 2` returns `0`, which is not the residue `0 ^ 0 % 2 = 1`. -/
theorem PowMod_not_reduced :
    PowMod 3 0 1 = .ret 1 ∧ ¬ ((1 : Int) < 1) ∧ (3 : Int) ^ 0 % 1 = 0 ∧
    PowMod 0 0 2 = .ret 0 ∧ (0 : Int) ^ 0 % 2 = 1 := by decide

/-- C9: `PowMod x y m` panics if and only if `y < 0` or `m = 0`; for every
`x`, every `y ≥ 0` and every `m ≠ 0` it returns a value. -/
theorem PowMod_panics_iff (x y m : Int) :
    ((∃ p, PowMod x y m = .panic p) ↔ (y < 0 ∨ m = 0)) ∧
    (0 ≤ y → m ≠ 0 → ∃ v, PowMod x y m = .ret v) := by
  have hret : 0 ≤ y → m ≠ 0 → ∃ v, PowMod x y m = .ret v := by
    intro hy hm
    by_cases hxy : x = 0 ∧ y = 0
    · refine ⟨0, ?_⟩
      unfold PowMod
      rw [if_neg (not_lt.mpr hy), if_neg hm, if_pos hxy.1]
    · obtain ⟨v, hv, _⟩ := PowMod_modEq x y m hy hm hxy
      exact ⟨v, hv⟩
  refine ⟨⟨?_, ?_⟩, hret⟩
  · rintro ⟨p, hp⟩
    by_contra hcon
    push_neg at hcon
    obtain ⟨v, hv⟩ := hret hcon.1 hcon.2
    rw [hv] at hp
    exact Result.noConfusion hp
  · intro h
    unfold PowMod
    by_cases hy : y < 0
    · exact ⟨.negativeExponent, by rw [if_pos hy]⟩
    · have hm : m = 0 := by tauto
      exact ⟨.moduloByZero, by rw [if_neg hy, if_pos hm]⟩

theorem PowMod_panics_iff_witness :
    ((∃ p, PowMod 5 3 7 = .panic p) ↔ ((3 : Int) < 0 ∨ (7 : Int) = 0)) ∧
    ((0 : Int) ≤ 3 ∧ (7 : Int) ≠ 0 ∧ ∃ v, PowMod 5 3 7 = .ret v) :=
  ⟨(PowMod_panics_iff 5 3 7).1, by decide, by decide,
    (PowMod_panics_iff 5 3 7).2 (by decide) (by decide)⟩

/-- C10 (counterexample): `PowMod 1 1 0` panics with "modulo by zero", while
`Pow 1 1` returns `1`. -/
theorem PowMod_mod_zero_ne_Pow :
    PowMod 1 1 0 = .panic .moduloByZero ∧ Pow .ideal 1 1 = .ret 1 ∧
    PowMod 1 1 0 ≠ Pow .ideal 1 1 := by decide

/-- C10 (amended): with `m = 0`, `PowMod x y 0` panics with "modulo by zero"
for every `x` and every `y ≥ 0`, whereas `Pow x y` returns a value; so
`PowMod x y 0` never equals `Pow x y`. -/
theorem PowMod_mod_zero (x y : Int) (hy : 0 ≤ y) :
    PowMod x y 0 = .panic .moduloByZero ∧ (∃ v, Pow .ideal x y = .ret v) ∧
    PowMod x y 0 ≠ Pow .ideal x y := by
  have h1 : PowMod x y 0 = .panic .moduloByZero := by
    unfold PowMod
    rw [if_neg (not_lt.mpr hy), if_pos rfl]
  have h2 : Pow .ideal x y = .ret (x ^ y.toNat) := by
    conv_lhs => rw [← Int.toNat_of_nonneg hy]
    exact Pow_natCast .ideal trivial x y.toNat
  refine ⟨h1, ⟨_, h2⟩, ?_⟩
  rw [h1, h2]
  exact fun h => Result.noConfusion h

theorem PowMod_mod_zero_witness :
    (0 : Int) ≤ 10 ∧ (PowMod 2 10 0 = .panic .moduloByZero ∧
    (∃ v, Pow .ideal 2 10 = .ret v) ∧ PowMod 2 10 0 ≠ Pow .ideal 2 10) :=
  ⟨by decide, PowMod_mod_zero 2 10 (by decide)⟩

/-! ## Panics of `Pow`, `Sqrt` and `Bit` -/

theorem powLoop_returns (T : IntType) : ∀ (n k : Nat) (r x : Int), k ≤ n →
    ∃ v, powLoop T n r x (k : Int) = .ret v := by
  intro n
  induction n with
  | zero =>
    intro k r x hk
    have hk0 : k = 0 := by omega
    subst hk0
    exact ⟨r, by simp [powLoop]⟩
  | succ n ih =>
    intro k r x hk
    unfold powLoop
    by_cases hc : (k : Int) > 0
    · rw [if_pos hc, shiftRight_one_natCast]
      exact ih (k / 2) _ _ (by omega)
    · rw [if_neg hc]
      exact ⟨r, rfl⟩

theorem Pow_returns (T : IntType) (x y : Int) (hy : 0 ≤ y) : ∃ v, Pow T x y = .ret v := by
  unfold Pow
  by_cases h00 : x = 0 ∧ y = 0
  · rw [if_pos h00]; exact ⟨1, rfl⟩
  rw [if_neg h00, if_neg (not_lt.mpr hy)]
  by_cases hx0 : x = 0
  · rw [if_pos hx0]; exact ⟨0, rfl⟩
  rw [if_neg hx0]
  by_cases hx1 : x = 1
  · rw [if_pos hx1]; exact ⟨1, rfl⟩
  rw [if_neg hx1]
  by_cases hx2 : x = 2
  · rw [if_pos hx2]; exact ⟨_, rfl⟩
  rw [if_neg hx2]
  have h := powLoop_returns T y.toNat y.toNat 1 x (le_refl _)
  rw [Int.toNat_of_nonneg hy] at h
  exact h

/-- C11: `Pow x y` panics if and only if `y < 0` (with "negative exponent");
for every `x` and every `y ≥ 0` it returns a value, for every element type;
and `Pow 0 0` returns `1`. -/
theorem Pow_panics_iff (T : IntType) (x y : Int) :
    ((∃ p, Pow T x y = .panic p) ↔ y < 0) ∧
    (y < 0 → Pow T x y = .panic .negativeExponent) ∧
    (0 ≤ y → ∃ v, Pow T x y = .ret v) ∧
    Pow T 0 0 = .ret 1 := by
  have hneg : y < 0 → Pow T x y = .panic .negativeExponent := by
    intro hy
    unfold Pow
    rw [if_neg (by omega), if_pos hy]
  refine ⟨⟨?_, fun hy => ⟨_, hneg hy⟩⟩, hneg, Pow_returns T x y, by simp [Pow]⟩
  rintro ⟨p, hp⟩
  by_contra hcon
  obtain ⟨v, hv⟩ := Pow_returns T x y (not_lt.mp hcon)
  rw [hv] at hp
  exact Result.noConfusion hp

theorem Pow_panics_iff_witness :
    ((∃ p, Pow (.sint 64) 1 (-1) = .panic p) ↔ (-1 : Int) < 0) ∧
    ((-1 : Int) < 0 ∧ Pow (.sint 64) 1 (-1) = .panic .negativeExponent) ∧
    ((0 : Int) ≤ 4 ∧ ∃ v, Pow (.sint 64) 3 4 = .ret v) ∧
    Pow (.sint 64) 0 0 = .ret 1 :=
  ⟨(Pow_panics_iff (.sint 64) 1 (-1)).1,
   ⟨by decide, (Pow_panics_iff (.sint 64) 1 (-1)).2.1 (by decide)⟩,
   ⟨by decide, (Pow_panics_iff (.sint 64) 3 4).2.2.1 (by decide)⟩,
   (Pow_panics_iff (.sint 64) 0 0).2.2.2⟩

theorem Sqrt_returns (x : Int) (hx : 0 ≤ x) :
    ∃ r, Sqrt x = .ret r ∧ 0 ≤ r ∧ r * r ≤ x ∧ x < (r + 1) * (r + 1) := by
  unfold Sqrt
  rw [if_neg (not_lt.mpr hx)]
  by_cases h0 : x = 0
  · rw [if_pos h0]; exact ⟨0, rfl, le_refl _, by omega, by omega⟩
  rw [if_neg h0]
  by_cases h1 : x = 1
  · rw [if_pos h1]; exact ⟨1, rfl, by norm_num, by omega, by omega⟩
  rw [if_neg h1]
  have e : x.tdiv 2 = x / 2 := Int.tdiv_eq_ediv hx (by norm_num)
  have hpos : 0 < x / 2 := by omega
  simp only [e]
  rw [if_neg (ne_of_gt hpos)]
  have hlt : x < (x / 2 + 1) * (x / 2 + 1) := by
    have : x ≤ 2 * (x / 2) + 1 := by omega
    nlinarith
  obtain ⟨r, hr, hr0, hr1, hr2⟩ :=
    sqrtLoop_spec x (by omega) x.toNat (x / 2) hpos (by omega) hlt
  exact ⟨r, hr, le_of_lt hr0, hr1, hr2⟩

/-- C12: `Sqrt x` panics (with "square root of negative number") for every
`x < 0` and returns a value for every `x ≥ 0`; `Sqrt 0 = 0` and
`Sqrt 1 = 1`. -/
theorem Sqrt_panics_iff (x : Int) :
    (x < 0 → Sqrt x = .panic .negativeSquareRoot) ∧
    (0 ≤ x → ∃ r, Sqrt x = .ret r) ∧
    ((∃ p, Sqrt x = .panic p) ↔ x < 0) ∧
    Sqrt 0 = .ret 0 ∧ Sqrt 1 = .ret 1 := by
  have hneg : x < 0 → Sqrt x = .panic .negativeSquareRoot := by
    intro hx
    unfold Sqrt
    rw [if_pos hx]
  have hret : 0 ≤ x → ∃ r, Sqrt x = .ret r := by
    intro hx
    obtain ⟨r, hr, _⟩ := Sqrt_returns x hx
    exact ⟨r, hr⟩
  refine ⟨hneg, hret, ⟨?_, fun hx => ⟨_, hneg hx⟩⟩, by decide, by decide⟩
  rintro ⟨p, hp⟩
  by_contra hcon
  obtain ⟨r, hr⟩ := hret (not_lt.mp hcon)
  rw [hr] at hp
  exact Result.noConfusion hp

theorem Sqrt_panics_iff_witness :
    ((-1 : Int) < 0 ∧ Sqrt (-1) = .panic .negativeSquareRoot) ∧
    ((0 : Int) ≤ 2000000 ∧ ∃ r, Sqrt 2000000 = .ret r) ∧
    ((∃ p, Sqrt (-1) = .panic p) ↔ (-1 : Int) < 0) ∧
    Sqrt 0 = .ret 0 ∧ Sqrt 1 = .ret 1 :=
  ⟨⟨by decide, (Sqrt_panics_iff (-1)).1 (by decide)⟩,
   ⟨by decide, (Sqrt_panics_iff 2000000).2.1 (by decide)⟩,
   (Sqrt_panics_iff (-1)).2.2.1, (Sqrt_panics_iff 0).2.2.2⟩

theorem Bit_eq (x i : Int) (hi : 0 ≤ i) :
    Bit x i = .ret ((x % 2 ^ 64) / 2 ^ i.toNat % 2) := by
  unfold Bit
  rw [if_neg (not_lt.mpr hi)]
  have hnn : 0 ≤ x % 2 ^ 64 := Int.emod_nonneg x (by positivity)
  obtain ⟨k, hk⟩ := Int.eq_ofNat_of_zero_le hnn
  rw [hk]
  have e : Int.shiftRight (k : Int) i.toNat = ((k / 2 ^ i.toNat : Nat) : Int) := by
    show (k : Int) >>> i.toNat = _
    rw [Int.shiftRight_eq_div_pow]
    norm_cast
  rw [e, land_one_natCast]
  congr 1
  push_cast
  rfl

/-- C13 (counterexample): with the bit index `64`, outside `[0, 63]`,
`Bit 1 64` returns `0`; it does not panic. -/
theorem Bit_index_64_returns :
    Bit 1 64 = .ret 0 ∧ ¬ ∃ p, Bit 1 64 = .panic p := by
  have h : Bit 1 64 = .ret 0 := by decide
  refine ⟨h, ?_⟩
  rintro ⟨p, hp⟩
  rw [h] at hp
  exact Result.noConfusion hp

/-- C13 (amended): for every `x`, `Bit x i` panics for every bit index
`i < 0`, and for every `i ≥ 64` it returns `0`. -/
theorem Bit_out_of_range (x i : Int) :
    (i < 0 → Bit x i = .panic .negativeShift) ∧ (64 ≤ i → Bit x i = .ret 0) := by
  constructor
  · intro hi
    unfold Bit
    rw [if_pos hi]
  · intro hi
    rw [Bit_eq x i (by omega)]
    congr 1
    have hnn : 0 ≤ x % 2 ^ 64 := Int.emod_nonneg x (by positivity)
    have hlt : x % 2 ^ 64 < 2 ^ 64 := Int.emod_lt_of_pos x (by positivity)
    have hpow : (2 : Int) ^ 64 ≤ 2 ^ i.toNat :=
      pow_le_pow_right₀ (by norm_num) (by omega)
    rw [Int.ediv_eq_zero_of_lt hnn (lt_of_lt_of_le hlt hpow)]
    rfl

theorem Bit_out_of_range_witness :
    ((-1 : Int) < 0 ∧ Bit 0 (-1) = .panic .negativeShift) ∧
    ((64 : Int) ≤ 100 ∧ Bit (-1) 100 = .ret 0) :=
  ⟨⟨by decide, (Bit_out_of_range 0 (-1)).1 (by decide)⟩,
   ⟨by decide, (Bit_out_of_range (-1) 100).2 (by decide)⟩⟩

/-- C14: for every `x` (of either sign) and every `i` with `0 ≤ i ≤ 63`,
`Bit x i` returns bit `i` of the 64-bit two's-complement representation of
`x`, that is `((x mod 2 ^ 64) / 2 ^ i) mod 2`, which is `0` or `1`. -/
theorem Bit_spec (x i : Int) (h0 : 0 ≤ i) (h63 : i ≤ 63) :
    ∃ b, Bit x i = .ret b ∧ b = (x % 2 ^ 64) / 2 ^ i.toNat % 2 ∧ (b = 0 ∨ b = 1) := by
  have _ := h63
  refine ⟨_, Bit_eq x i h0, rfl, ?_⟩
  omega

theorem Bit_spec_witness :
    (0 : Int) ≤ 63 ∧ (63 : Int) ≤ 63 ∧
    ∃ b, Bit (-5) 63 = .ret b ∧ b = ((-5) % 2 ^ 64) / 2 ^ (63 : Int).toNat % 2 ∧
      (b = 0 ∨ b = 1) :=
  ⟨by decide, by decide, Bit_spec (-5) 63 (by decide) (by decide)⟩

/-! ## `GCD`, `XGCD`, `Sign` and `Abs`: algebraic properties -/

theorem gcd_natAbs_cast (x y : Int) :
    Int.gcd (x.natAbs : Int) (y.natAbs : Int) = Int.gcd x y := by
  simp only [Int.gcd, Int.natAbs_ofNat]

/-- C15: `GCD` is symmetric and insensitive to sign: `GCD x y`, `GCD y x` and
`GCD (Abs x) (Abs y)` return the same value. -/
theorem GCD_comm_abs (x y : Int) :
    ∃ g, GCD x y = .ret g ∧ GCD y x = .ret g ∧ GCD (Abs x) (Abs y) = .ret g := by
  refine ⟨((Int.gcd x y : Nat) : Int), GCD_eq_gcd x y, ?_, ?_⟩
  · rw [GCD_eq_gcd, Int.gcd_comm]
  · rw [GCD_eq_gcd, Abs_eq_natAbs, Abs_eq_natAbs, gcd_natAbs_cast]

/-- C16: `XGCD` on a zero argument returns the documented triples:
`XGCD 0 0 = (0, 0, 0)`; `XGCD 0 y = (Abs y, 0, Sign y)` for `y ≠ 0`;
`XGCD x 0 = (Abs x, Sign x, 0)` for `x ≠ 0`. -/
theorem XGCD_zero_arg (x y : Int) :
    XGCD 0 0 = .ret (0, 0, 0) ∧
    (y ≠ 0 → XGCD 0 y = .ret (Abs y, 0, Sign y)) ∧
    (x ≠ 0 → XGCD x 0 = .ret (Abs x, Sign x, 0)) := by
  refine ⟨by decide, ?_, ?_⟩
  · intro hy
    unfold XGCD
    rw [if_neg (by tauto), if_pos rfl]
  · intro hx
    unfold XGCD
    rw [if_neg (by tauto), if_neg hx, if_pos rfl]

theorem XGCD_zero_arg_witness :
    XGCD 0 0 = .ret (0, 0, 0) ∧
    ((-2 : Int) ≠ 0 ∧ XGCD 0 (-2) = .ret (Abs (-2), 0, Sign (-2))) ∧
    ((-7 : Int) ≠ 0 ∧ XGCD (-7) 0 = .ret (Abs (-7), Sign (-7), 0)) :=
  ⟨(XGCD_zero_arg (-7) (-2)).1,
   ⟨by decide, (XGCD_zero_arg (-7) (-2)).2.1 (by decide)⟩,
   ⟨by decide, (XGCD_zero_arg (-7) (-2)).2.2 (by decide)⟩⟩

/-- C17: for every integer `x`, `Sign x` is `-1`, `0` or `1`, and
`Sign x * Abs x = x`. -/
theorem Sign_mul_Abs (x : Int) :
    (Sign x = -1 ∨ Sign x = 0 ∨ Sign x = 1) ∧ Sign x * Abs x = x := by
  unfold Sign Abs
  split_ifs <;> refine ⟨by simp, by omega⟩

/-- C18: for all `x` and `y` of either sign, the Euclidean loop of `XGCD`
terminates, and the absolute value of the first result, both of the loop and
of `XGCD`, is the value of `GCD x y`, whatever sign that result has. -/
theorem XGCD_abs_eq_GCD (x y : Int) :
    (∃ g s t, xgcdLoop y.natAbs x y 1 0 0 1 = .ret (g, s, t) ∧ GCD x y = .ret (Abs g)) ∧
    (∃ g s t, XGCD x y = .ret (g, s, t) ∧ GCD x y = .ret (Abs g)) := by
  have hloop : ∃ g s t, xgcdLoop y.natAbs x y 1 0 0 1 = .ret (g, s, t) ∧
      GCD x y = .ret (Abs g) := by
    obtain ⟨g, a, b, hg, _, hgcd⟩ := xgcdLoop_spec x y y.natAbs x y 1 0 0 1 (le_refl _)
      (by ring) (by ring)
    refine ⟨g, a, b, hg, ?_⟩
    rw [GCD_eq_gcd, Abs_eq_natAbs, hgcd]
    rfl
  refine ⟨hloop, ?_⟩
  unfold XGCD
  by_cases hxy : x = 0 ∧ y = 0
  · rw [if_pos hxy, hxy.1, hxy.2]; exact ⟨0, 0, 0, rfl, by decide⟩
  rw [if_neg hxy]
  by_cases hx : x = 0
  · rw [if_pos hx, hx]
    refine ⟨_, _, _, rfl, ?_⟩
    rw [GCD_eq_gcd, Abs_eq_natAbs, Abs_eq_natAbs]
    simp [Int.gcd]
  rw [if_neg hx]
  by_cases hy : y = 0
  · rw [if_pos hy, hy]
    refine ⟨_, _, _, rfl, ?_⟩
    rw [GCD_eq_gcd, Abs_eq_natAbs, Abs_eq_natAbs]
    simp [Int.gcd]
  rw [if_neg hy]
  exact hloop

/-! ## Divisors of `Sqrt` -/

theorem sqrtLoopDivisors_spec (x : Int) (hx : 1 ≤ x) :
    ∀ (n : Nat) (x0 : Int) (ds : List Int), 0 < x0 → x0.toNat ≤ n →
      x < (x0 + 1) * (x0 + 1) → (∀ d ∈ ds, 1 ≤ d) →
      ∃ r ds', sqrtLoopDivisors x n x0 ((x0 + x.tdiv x0).tdiv 2) ds = .ret (r, ds') ∧
        sqrtLoop x n x0 ((x0 + x.tdiv x0).tdiv 2) = .ret r ∧
        (∀ d ∈ ds', 1 ≤ d) ∧ ds.length ≤ ds'.length := by
  intro n
  induction n with
  | zero =>
    intro x0 ds h0 hn _ _
    omega
  | succ n ih =>
    intro x0 ds h0 hn hlt hds
    have hx0 : 0 ≤ x := by omega
    have hq0 : 0 ≤ x / x0 := Int.ediv_nonneg hx0 (le_of_lt h0)
    have e1 : x.tdiv x0 = x / x0 := Int.tdiv_eq_ediv hx0 (le_of_lt h0)
    have e2 : (x0 + x / x0).tdiv 2 = (x0 + x / x0) / 2 :=
      Int.tdiv_eq_ediv (by omega) (by norm_num)
    rw [e1, e2]
    unfold sqrtLoopDivisors sqrtLoop
    by_cases hc : (x0 + x / x0) / 2 < x0
    · have hlow := newton_lower x x0 hx0 h0
      have h1nn : 0 ≤ (x0 + x / x0) / 2 := Int.ediv_nonneg (by omega) (by norm_num)
      have h1pos : 0 < (x0 + x / x0) / 2 := by
        rcases eq_or_lt_of_le h1nn with h | h
        · rw [← h] at hlow; omega
        · exact h
      rw [if_pos hc, if_neg (ne_of_gt h1pos), if_pos hc, if_neg (ne_of_gt h1pos)]
      have hds' : ∀ d ∈ ds ++ [(x0 + x / x0) / 2], 1 ≤ d := by
        intro d hd
        rcases List.mem_append.mp hd with h | h
        · exact hds d h
        · rw [List.mem_singleton.mp h]; omega
      obtain ⟨r, ds', h1, h2, h3, h4⟩ := ih _ (ds ++ [(x0 + x / x0) / 2]) h1pos (by omega)
        hlow hds'
      refine ⟨r, ds', h1, h2, h3, ?_⟩
      rw [List.length_append] at h4
      omega
    · rw [if_neg hc, if_neg hc]
      exact ⟨x0, ds, rfl, rfl, hds, le_refl _⟩

/-- C19: for every `x ≥ 2`, `Sqrt x` returns, and every division `x / x0` it
executes (the seed division and the one of each Newton iteration) has a
divisor `x0 ≥ 1`; so `Sqrt` never divides by zero on a non-negative input. -/
theorem Sqrt_divisors_pos (x : Int) :
    (2 ≤ x → ∃ r ds, SqrtDivisors x = .ret (r, ds) ∧ Sqrt x = .ret r ∧ ds ≠ [] ∧
      ∀ d ∈ ds, 1 ≤ d) ∧
    (0 ≤ x → Sqrt x ≠ .panic .divideByZero) := by
  constructor
  · intro h2
    have hx : 0 ≤ x := by omega
    unfold SqrtDivisors Sqrt
    have hn0 : ¬ x < 0 := by omega
    have hn1 : ¬ x = 0 := by omega
    have hn2 : ¬ x = 1 := by omega
    have e : x.tdiv 2 = x / 2 := Int.tdiv_eq_ediv hx (by norm_num)
    have hpos : 0 < x / 2 := by omega
    simp only [e, if_neg hn0, if_neg hn1, if_neg hn2, if_neg (ne_of_gt hpos)]
    have hlt : x < (x / 2 + 1) * (x / 2 + 1) := by
      have : x ≤ 2 * (x / 2) + 1 := by omega
      nlinarith
    obtain ⟨r, ds, h1, h2, h3, h4⟩ := sqrtLoopDivisors_spec x (by omega) x.toNat (x / 2)
      [x / 2] hpos (by omega) hlt (by
        intro d hd
        rw [List.mem_singleton.mp hd]; omega)
    refine ⟨r, ds, h1, h2, ?_, h3⟩
    intro hnil
    rw [hnil] at h4
    simp at h4
  · intro hx
    obtain ⟨r, hr, _⟩ := Sqrt_returns x hx
    rw [hr]
    exact fun h => Result.noConfusion h

theorem Sqrt_divisors_pos_witness :
    ((2 : Int) ≤ 99 ∧ ∃ r ds, SqrtDivisors 99 = .ret (r, ds) ∧ Sqrt 99 = .ret r ∧ ds ≠ [] ∧
      ∀ d ∈ ds, 1 ≤ d) ∧
    ((0 : Int) ≤ 99 ∧ Sqrt 99 ≠ .panic .divideByZero) :=
  ⟨⟨by decide, (Sqrt_divisors_pos 99).1 (by decide)⟩,
   ⟨by decide, (Sqrt_divisors_pos 99).2 (by decide)⟩⟩

/-! ## The shortcuts of `Pow` -/

theorem squareMultiplyLoop_eq (T : IntType) : ∀ (n k : Nat) (r x : Int),
    squareMultiplyLoop T n r x (k : Int) = powLoop T n r x (k : Int) := by
  intro n
  induction n with
  | zero =>
    intro k r x
    rfl
  | succ n ih =>
    intro k r x
    unfold squareMultiplyLoop powLoop
    by_cases hc : (k : Int) > 0
    · rw [if_pos hc, if_pos hc, land_one_natCast, shiftRight_one_natCast, ih]
      have e : (k : Int) % 2 = ((k % 2 : Nat) : Int) := by norm_cast
      rw [e]
    · rw [if_neg hc, if_neg hc]

/-- C20: the shortcuts of `Pow` agree with its general algorithm: for every
`x` (in particular `0`, `1` and `2`) and every `y ≥ 0`, `Pow x y` returns the
value that the square-and-multiply loop alone returns (`PowGeneral`), for the
mathematical integers and for every fixed-width element type. -/
theorem Pow_eq_PowGeneral (T : IntType) (hT : T.WellFormed) (x y : Int) (hy : 0 ≤ y) :
    Pow T x y = PowGeneral T x y ∧ (∃ v, PowGeneral T x y = .ret v) ∧
    Pow T 0 y = PowGeneral T 0 y ∧ Pow T 1 y = PowGeneral T 1 y ∧
    Pow T 2 y = PowGeneral T 2 y := by
  have key : ∀ z : Int, Pow T z y = PowGeneral T z y ∧
      PowGeneral T z y = .ret (T.wrap (z ^ y.toNat)) := by
    intro z
    have hg : PowGeneral T z y = .ret (T.wrap (z ^ y.toNat)) := by
      unfold PowGeneral
      rw [if_neg (not_lt.mpr hy)]
      conv_lhs => rw [← Int.toNat_of_nonneg hy, Int.toNat_ofNat]
      rw [squareMultiplyLoop_eq, powLoop_spec T _ _ 1 z (le_refl _) (wrap_one T hT), one_mul]
    refine ⟨?_, hg⟩
    rw [hg]
    conv_lhs => rw [← Int.toNat_of_nonneg hy]
    exact Pow_natCast T hT z y.toNat
  exact ⟨(key x).1, ⟨_, (key x).2⟩, (key 0).1, (key 1).1, (key 2).1⟩

theorem Pow_eq_PowGeneral_witness :
    (IntType.sint 8).WellFormed ∧ (0 : Int) ≤ 9 ∧
    (Pow (.sint 8) 3 9 = PowGeneral (.sint 8) 3 9 ∧
    (∃ v, PowGeneral (.sint 8) 3 9 = .ret v) ∧
    Pow (.sint 8) 0 9 = PowGeneral (.sint 8) 0 9 ∧
    Pow (.sint 8) 1 9 = PowGeneral (.sint 8) 1 9 ∧
    Pow (.sint 8) 2 9 = PowGeneral (.sint 8) 2 9) :=
  ⟨by decide, by decide, Pow_eq_PowGeneral (.sint 8) (by decide) 3 9 (by decide)⟩

end Num
